import Mathlib

/-!
Verification of the template-expansion engine in
`.github/workflows_templates/from_template.py` (function `_substitute` and the
regular expressions it compiles).

Modelling choices:
* Text is `List Char`.  A template file is a list of lines, each without its
  trailing newline; `joinNl` rebuilds the flat text exactly as
  `''.join(template_lines)` does.
* The three regular expressions of the source are modelled by equivalent
  scanning functions over ASCII characters (`\w` is modelled as ASCII
  letter/digit/underscore, which covers every input the program uses):
  - `^ *# *Arguments: *$`                      -> `isArgHeader`
  - `^ *# *([-\w]+): *([-\.\w]+) *(#.*)?$`     -> `parseArgLine`
  - `^.*<<key>>` (MULTILINE) search            -> first line containing
    `<<key>>`, matched up to the end of the *last* occurrence of `<<key>>`
    on that line (greedy `.*`); modelled by `applySubLines` / `lastOcc`.
  - `<<\w*>>` search                           -> `findPlaceholder`.
* The unbounded `while True:` loop is modelled by the fuel-indexed `fixLoop`;
  `none` means the loop has not reached its exit condition within the given
  number of passes.
* Python errors (`RuntimeError`) become `Except SubErr`; `**subs` passes the
  caller's table by value, so the per-document table is an explicit argument
  threaded functionally.
-/

set_option maxRecDepth 100000

namespace FromTemplate

abbrev Text := List Char

/-- Python `\w`, restricted to ASCII: letters, digits and underscore. -/
def wordChar (c : Char) : Bool := c.isAlpha || c.isDigit || c == '_'

/-- Character class `[-\w]` used for argument names in `argument_finder`. -/
def nameChar (c : Char) : Bool := wordChar c || c == '-'

/-- Character class `[-\.\w]` used for argument values in `argument_finder`. -/
def valChar (c : Char) : Bool := nameChar c || c == '.'

/-- The marker regex `argument_header_finder = '^ *# *Arguments: *$'`. -/
def isArgHeader (l : Text) : Bool :=
  match l.dropWhile (· == ' ') with
  | '#' :: r =>
    let r2 := r.dropWhile (· == ' ')
    "Arguments:".data.isPrefixOf r2 && (r2.drop 10).all (· == ' ')
  | _ => false

/-- The argument regex `argument_finder = '^ *# *([-\w]+): *([-\.\w]+) *(#.*)?$'`,
returning the two capture groups (name, value) on success. -/
def parseArgLine (l : Text) : Option (Text × Text) :=
  match l.dropWhile (· == ' ') with
  | '#' :: r =>
    let r2 := r.dropWhile (· == ' ')
    let nm := r2.takeWhile nameChar
    if nm = [] then none else
    match r2.dropWhile nameChar with
    | ':' :: r3 =>
      let r4 := r3.dropWhile (· == ' ')
      let v := r4.takeWhile valChar
      if v = [] then none else
      match (r4.dropWhile valChar).dropWhile (· == ' ') with
      | [] => some (nm, v)
      | '#' :: _ => some (nm, v)
      | _ => none
    | _ => none
  | _ => none

/-- Failure modes of `_substitute`: the two `RuntimeError`s of the source plus
`outOfFuel`, which marks that the bounded model of `while True:` has not
terminated within its pass budget. -/
inductive SubErr where
  | dup (fname nm : Text)
  | unsubbed (tok fname : Text)
  | outOfFuel
deriving DecidableEq

deriving instance DecidableEq for Except

/-- The argument-discovery loop of `_substitute` (source lines 57-74).
`flag` is `found_argument_header`; `subs` is the (caller-supplied, then
extended) definition table in insertion order.  A line matching the marker
sets the flag and is skipped (`continue`); once the flag is set, a line
matching the argument grammar is collected (raising on a duplicate name) and
any other line stops collection (`break`). -/
def extractArgs (fname : Text) : List Text → Bool → List (Text × Text) →
    Except SubErr (List (Text × Text))
  | [], _, subs => .ok subs
  | l :: ls, flag, subs =>
    if isArgHeader l then extractArgs fname ls true subs
    else if flag then
      match parseArgLine l with
      | none => .ok subs
      | some (nm, v) =>
        if subs.any (fun p => p.1 == nm) then .error (.dup fname nm)
        else extractArgs fname ls true (subs ++ [(nm, v)])
    else extractArgs fname ls false subs

/-- Python `str.split('\n')`: `"a\nb" -> ["a","b"]`, `"" -> [""]`. -/
def splitNl : Text → List Text
  | [] => [[]]
  | c :: rest =>
    if c = '\n' then [] :: splitNl rest
    else (c :: (splitNl rest).headD []) :: (splitNl rest).tail

/-- Python `'\n'.join`. -/
def joinNl : List Text → Text
  | [] => []
  | [l] => l
  | l :: ls => l ++ '\n' :: joinNl ls

/-- The placeholder token `'<<{}>>'.format(key)`. -/
def bracket (k : Text) : Text := '<' :: '<' :: (k ++ ['>', '>'])

/-- Does pattern `B` occur in `l` starting at index `i`? -/
def occAt (l B : Text) (i : Nat) : Bool := B.isPrefixOf (l.drop i)

/-- Scan start indices `n-1, n-2, ..., 0` and return `start + B.length` for the
largest start index at which `B` occurs. -/
def lastOccAux (l B : Text) : Nat → Option Nat
  | 0 => none
  | i + 1 => if occAt l B i then some (i + B.length) else lastOccAux l B i

/-- End position (exclusive) of the last occurrence of `B` in `l`, mirroring
`searched.end()` for the greedy MULTILINE search `^.*B` restricted to one
line: the regex match runs from the start of the line to the end of the last
occurrence of `B` on it. -/
def lastOcc (l B : Text) : Option Nat := lastOccAux l B (l.length + 1)

/-- The replacement built in source lines 93-101 for a line `l` whose match
ends at `e`: `white_space_amount = e - len(B)`, `first_characters` are copied
back in front of the first value line, every further value line is prefixed
with that many spaces, and the text after the match (`template[searched.end():]`,
here the rest of the line) is kept. -/
def spliceLine (l : Text) (e : Nat) (B v : Text) : Text :=
  let w := e - B.length
  let vlines := splitNl v
  joinNl ((l.take w ++ vlines.headD []) ::
      vlines.tail.map (fun s => List.replicate w ' ' ++ s)) ++ l.drop e

/-- Apply one substitution of value `v` for token `B`: the regex `^.*B` with
MULTILINE matches on the first line that contains `B`; `none` when no line
does (`if not searched: continue`). -/
def applySubLines (B v : Text) : List Text → Option (List Text)
  | [] => none
  | l :: ls =>
    match lastOcc l B with
    | some e => some (spliceLine l e B v :: ls)
    | none => (applySubLines B v ls).map (fun r => l :: r)

/-- One `sub_re.search` plus replacement on the flat template text. -/
def applySub (t B v : Text) : Option Text := (applySubLines B v (splitNl t)).map joinNl

/-- One pass of the `for sub_key_bracket, ... in subs_re.items()` loop:
each definition is tried once, in table order, against the current text; the
boolean is `found` (did any definition fire during the pass). -/
def passSubs : List (Text × Text) → Text → Text × Bool
  | [], t => (t, false)
  | (k, v) :: rest, t =>
    match applySub t (bracket k) v with
    | none => passSubs rest t
    | some t2 => ((passSubs rest t2).1, true)

/-- The `while True:` fixpoint loop with an explicit pass budget: `none` means
the loop is still finding substitutions after `fuel` passes. -/
def fixLoop : Nat → List (Text × Text) → Text → Option Text
  | 0, _, _ => none
  | n + 1, subs, t =>
    if (passSubs subs t).2 then fixLoop n subs (passSubs subs t).1
    else some (passSubs subs t).1

/-- Does a match of `unsubbed = '<<\w*>>'` start at the head of `t`?
Returns the matched token. -/
def matchHere (t : Text) : Option Text :=
  if "<<".data.isPrefixOf t then
    if ">>".data.isPrefixOf ((t.drop 2).dropWhile wordChar) then
      some ("<<".data ++ (t.drop 2).takeWhile wordChar ++ ">>".data)
    else none
  else none

/-- Leftmost match of `'<<\w*>>'` in `t` (`unsubbed.search(template)`). -/
def findPlaceholder : Text → Option Text
  | [] => none
  | c :: cs =>
    match matchHere (c :: cs) with
    | some tok => some tok
    | none => findPlaceholder cs

/-- The leftover validation of source lines 105-108: fail with the offending
token and the template identifier when any `<<\w*>>` remains. -/
def checkUnsubbed (fname t : Text) : Except SubErr Unit :=
  match findPlaceholder t with
  | some tok => .error (.unsubbed tok fname)
  | none => .ok ()

/-- The fixed banner prepended in source lines 110-116. -/
def bannerLines : List Text :=
  ["################################################".data,
   "###                                          ###".data,
   "### THIS FILE IS AUTOGENERATED. DO NOT EDIT. ###".data,
   "###                                          ###".data,
   "################################################".data,
   "".data]

/-- `'\n'.join([banner..., '', template])`. -/
def emit (t : Text) : Text := joinNl (bannerLines ++ [t])

/-- The whole single-document operation `_substitute(filename, **subs)` minus
file I/O: extract arguments, run the substitution loop to fixpoint (within
`fuel` passes), validate leftovers, and prepend the banner.  `callerSubs` is
the caller's definition table; `**subs` packing means the function works on
its own copy, so the table is simply a value here. -/
def substituteDoc (fuel : Nat) (fname : Text) (lines : List Text)
    (callerSubs : List (Text × Text)) : Except SubErr Text :=
  match extractArgs fname lines false callerSubs with
  | .error e => .error e
  | .ok subs =>
    match fixLoop fuel subs (joinNl lines) with
    | none => .error .outOfFuel
    | some t =>
      match checkUnsubbed fname t with
      | .error e => .error e
      | .ok _ => .ok (emit t)

/-! Helper lemmas about the list primitives used by the model. -/

theorem isPrefixOf_ex : ∀ (a b : Text), a.isPrefixOf b = true ↔ ∃ s, b = a ++ s := by
  intro a
  induction a with
  | nil =>
    intro b
    constructor
    · intro _; exact ⟨b, rfl⟩
    · intro _; cases b <;> rfl
  | cons c a ih =>
    intro b
    cases b with
    | nil =>
      constructor
      · intro h; exact absurd h (by simp [List.isPrefixOf])
      · rintro ⟨s, hs⟩; cases hs
    | cons d bs =>
      simp only [List.isPrefixOf, Bool.and_eq_true, beq_iff_eq]
      constructor
      · rintro ⟨rfl, h⟩
        obtain ⟨s, rfl⟩ := (ih bs).mp h
        exact ⟨s, rfl⟩
      · rintro ⟨s, hs⟩
        injection hs with h1 h2
        exact ⟨h1.symm, (ih bs).mpr ⟨s, h2⟩⟩

theorem take_len_app : ∀ (a b : Text), (a ++ b).take a.length = a := by
  intro a b
  induction a with
  | nil => rfl
  | cons c a ih => simp [List.take_succ_cons, ih]

theorem drop_len_app : ∀ (a b : Text), (a ++ b).drop a.length = b := by
  intro a b
  induction a with
  | nil => rfl
  | cons c a ih => simp [List.drop_succ_cons, ih]

theorem splitNl_no_nl (a : Text) (ha : '\n' ∉ a) : splitNl a = [a] := by
  induction a with
  | nil => rfl
  | cons c a ih =>
    have hc : ¬ c = '\n' := fun h => ha (h ▸ List.mem_cons_self c a)
    have ha' : '\n' ∉ a := fun h => ha (List.mem_cons_of_mem c h)
    simp [splitNl, hc, ih ha']

theorem splitNl_app (a b : Text) (ha : '\n' ∉ a) : splitNl (a ++ '\n' :: b) = a :: splitNl b := by
  induction a with
  | nil => simp [splitNl]
  | cons c a ih =>
    have hc : ¬ c = '\n' := fun h => ha (h ▸ List.mem_cons_self c a)
    have ha' : '\n' ∉ a := fun h => ha (List.mem_cons_of_mem c h)
    simp [splitNl, hc, ih ha']

theorem joinNl_pair (x y : Text) : joinNl [x, y] = x ++ '\n' :: y := rfl

/- Round trip: splitting a join of newline-free lines recovers the lines,
mirroring that Python's `'\n'.join` and `split('\n')` are mutually inverse on
such line lists. -/
theorem splitNl_joinNl : ∀ (ls : List Text), (∀ s ∈ ls, '\n' ∉ s) →
    ls ≠ [] → splitNl (joinNl ls) = ls := by
  intro ls
  induction ls with
  | nil => intro _ h; exact absurd rfl h
  | cons v rest ih =>
    intro h _
    cases rest with
    | nil => exact splitNl_no_nl v (h v (List.mem_cons_self v []))
    | cons w rest2 =>
      have hv : '\n' ∉ v := h v (List.mem_cons_self v (w :: rest2))
      have h' : ∀ s ∈ w :: rest2, '\n' ∉ s := fun s hs => h s (List.mem_cons_of_mem v hs)
      have hj : joinNl (v :: w :: rest2) = v ++ '\n' :: joinNl (w :: rest2) := rfl
      rw [hj, splitNl_app v _ hv, ih h' (by simp)]

/-! Argument extraction: structural lemmas. -/

/- Lines scanned before `found_argument_header` is set are only compared
against the marker pattern; a run of non-marker lines is skipped outright. -/
theorem extract_skip (fname : Text) (pre ls : List Text) (subs : List (Text × Text))
    (h : ∀ l ∈ pre, isArgHeader l = false) :
    extractArgs fname (pre ++ ls) false subs = extractArgs fname ls false subs := by
  induction pre with
  | nil => rfl
  | cons x pre ih =>
    have hx : isArgHeader x = false := h x (List.mem_cons_self x pre)
    have h' : ∀ l ∈ pre, isArgHeader l = false := fun l hl => h l (List.mem_cons_of_mem x hl)
    simp [extractArgs, hx, ih h']

/-- C10: when no line matches the marker pattern `^ *# *Arguments: *$`,
argument extraction adds no definitions at all, even if some lines match the
argument grammar; more precisely, any block of non-marker lines before the
rest of the file is skipped without being treated as argument declarations,
and a template with only non-marker lines yields the caller table unchanged. -/
theorem c10_theorem (fname : Text) (pre ls : List Text) (subs : List (Text × Text))
    (h : ∀ l ∈ pre, isArgHeader l = false) :
    extractArgs fname (pre ++ ls) false subs = extractArgs fname ls false subs ∧
    extractArgs fname pre false subs = .ok subs := by
  refine ⟨extract_skip fname pre ls subs h, ?_⟩
  have h0 := extract_skip fname pre [] subs h
  simpa [extractArgs] using h0

/-- Witness for C10 at the concrete input `["# a: 1"]`: the line matches the
argument grammar but there is no marker line, so nothing is collected. -/
theorem c10_witness :
    extractArgs "t".data ("# a: 1".data :: ["# Arguments:".data, "# b: 2".data]) false [] =
      extractArgs "t".data ["# Arguments:".data, "# b: 2".data] false [] ∧
    extractArgs "t".data ["# a: 1".data] false [] = .ok [] := by
  constructor
  · have h := c10_theorem "t".data ["# a: 1".data] ["# Arguments:".data, "# b: 2".data] []
      (by decide)
    exact h.1
  · have h := c10_theorem "t".data ["# a: 1".data] [] [] (by decide)
    exact h.2

/-- C5: once collection is running, a discovered argument whose name is
already bound in the definition table (whether caller-supplied or declared by
an earlier header line) aborts extraction with the duplicate error carrying
the template identifier and the colliding name; no table is produced, so
neither value wins. -/
theorem c5_theorem (fname l : Text) (rest : List Text) (subs : List (Text × Text)) (nm v : Text)
    (hH : isArgHeader l = false) (hp : parseArgLine l = some (nm, v))
    (hdup : subs.any (fun p => p.1 == nm) = true) :
    extractArgs fname (l :: rest) true subs = .error (.dup fname nm) := by
  simp [extractArgs, hH, hp, hdup]

/-- Witness for C5: spec scenario (caller `{os: linux}` against a header
declaring `os: windows`) and the two-header-lines collision. -/
theorem c5_witness :
    extractArgs "t".data ["# Arguments:".data, "# os: windows".data] false
      [("os".data, "linux".data)] = .error (.dup "t".data "os".data) ∧
    extractArgs "t".data ["# Arguments:".data, "# a: 1".data, "# a: 2".data] false [] =
      .error (.dup "t".data "a".data) := by
  constructor
  · have h := c5_theorem "t".data "# os: windows".data [] [("os".data, "linux".data)]
      "os".data "windows".data (by decide) (by decide) (by decide)
    calc extractArgs "t".data ["# Arguments:".data, "# os: windows".data] false
          [("os".data, "linux".data)]
        = extractArgs "t".data ["# os: windows".data] true [("os".data, "linux".data)] := by
          simp [extractArgs, show isArgHeader "# Arguments:".data = true from by decide]
      _ = .error (.dup "t".data "os".data) := h
  · decide

/-- C8 (amended): during collection, a line that matches neither the argument
grammar nor the marker pattern stops extraction without an error, returning
the table collected so far; a line that matches the marker pattern is skipped
and collection continues past it (so collection does NOT stop at every
non-argument line, only at lines matching neither pattern).  Extraction never
alters the template lines themselves: `substituteDoc` hands
`joinNl lines` to the substitution loop unconditionally. -/
theorem c8_theorem (fname l : Text) (post : List Text) (subs : List (Text × Text)) :
    (isArgHeader l = false → parseArgLine l = none →
      extractArgs fname (l :: post) true subs = .ok subs) ∧
    (isArgHeader l = true →
      extractArgs fname (l :: post) true subs = extractArgs fname post true subs) := by
  constructor
  · intro h1 h2; simp [extractArgs, h1, h2]
  · intro h1; simp [extractArgs, h1]

/-- Counterexample for C8 as stated: with a second marker line interleaved,
the line `"# Arguments:"` does not match the argument grammar, yet collection
does not stop there — the pair `(b, 2)` on the following line is still
collected, so pairs are not collected only from the consecutive
argument-grammar lines immediately after the marker. -/
theorem c8_counterexample :
    extractArgs "t".data
      ["# Arguments:".data, "# a: 1".data, "# Arguments:".data, "# b: 2".data] false [] =
      .ok [("a".data, "1".data), ("b".data, "2".data)] ∧
    parseArgLine "# Arguments:".data = none := by decide

/-- Witness for C8 (amended) at a concrete stopping line `"xyz"`. -/
theorem c8_witness :
    extractArgs "t".data ("xyz".data :: ["# c: 3".data]) true [("a".data, "1".data)] =
      .ok [("a".data, "1".data)] := by
  have h := c8_theorem "t".data "xyz".data ["# c: 3".data] [("a".data, "1".data)]
  exact h.1 (by decide) (by decide)

/-- C9: argument extraction only ever appends to the definition table it was
given: on success the resulting table is the caller-supplied table followed by
the newly discovered pairs, so every caller-supplied entry survives at its
position with its value.  Because `_substitute(filename, **subs)` receives a
fresh keyword dictionary per invocation, this is exactly the per-invocation
copy of the claim: the caller's own table is never mutated, and every document
expansion observes the same caller-supplied entries. -/
theorem c9_theorem : ∀ (lines : List Text) (fname : Text) (flag : Bool)
    (subs r : List (Text × Text)),
    extractArgs fname lines flag subs = .ok r → ∃ new, r = subs ++ new := by
  intro lines
  induction lines with
  | nil =>
    intro fname flag subs r h
    simp [extractArgs] at h
    exact ⟨[], by simp [h]⟩
  | cons l ls ih =>
    intro fname flag subs r h
    by_cases hH : isArgHeader l = true
    · simp only [extractArgs, hH, if_true] at h
      exact ih fname true subs r h
    · have hH' : isArgHeader l = false := by simpa using hH
      cases flag with
      | false =>
        simp only [extractArgs, hH', Bool.false_eq_true, if_false] at h
        exact ih fname false subs r h
      | true =>
        cases hp : parseArgLine l with
        | none =>
          simp [extractArgs, hH', hp] at h
          exact ⟨[], by simp [h]⟩
        | some nv =>
          obtain ⟨nm, v⟩ := nv
          cases hd : subs.any (fun p => p.1 == nm) with
          | true => simp [extractArgs, hH', hp, hd] at h
          | false =>
            simp only [extractArgs, hH', hp, hd, Bool.false_eq_true, if_false] at h
            obtain ⟨new, hnew⟩ := ih fname true (subs ++ [(nm, v)]) r h
            exact ⟨(nm, v) :: new, by simp [hnew]⟩

/-- Witness for C9: the caller table `{os: linux}` survives unchanged as a
left factor of the extended table after a header declares `event: push`. -/
theorem c9_witness :
    ∃ new, [("os".data, "linux".data), ("event".data, "push".data)] =
      [("os".data, "linux".data)] ++ new :=
  c9_theorem ["# Arguments:".data, "# event: push".data] "t".data false
    [("os".data, "linux".data)]
    [("os".data, "linux".data), ("event".data, "push".data)] (by decide)

/-! The fixpoint loop: cycle behaviour and determinism. -/

/- The cyclic definition table of the spec's cycle-detection property. -/
def cycleSubs : List (Text × Text) := [("a".data, "<<b>>".data), ("b".data, "<<a>>".data)]

/- One pass over the cyclic table replaces `<<a>>` by `<<b>>` and then
`<<b>>` back by `<<a>>`: the text is restored and `found` is true. -/
theorem cycle_pass : passSubs cycleSubs "<<a>>".data = ("<<a>>".data, true) := by decide

/- Hence the `while True:` loop never takes its exit branch on this input. -/
theorem cycle_fix : ∀ n, fixLoop n cycleSubs "<<a>>".data = none := by
  intro n
  induction n with
  | zero => rfl
  | succ k ih =>
    have h1 : fixLoop (k + 1) cycleSubs "<<a>>".data =
        if (passSubs cycleSubs "<<a>>".data).2 then
          fixLoop k cycleSubs (passSubs cycleSubs "<<a>>".data).1
        else some (passSubs cycleSubs "<<a>>".data).1 := rfl
    rw [h1, cycle_pass]
    simpa using ih

theorem cycle_subdoc : ∀ n,
    substituteDoc n "build.yml".data ["<<a>>".data] cycleSubs = .error .outOfFuel := by
  intro n
  have h1 : substituteDoc n "build.yml".data ["<<a>>".data] cycleSubs =
      (match fixLoop n cycleSubs "<<a>>".data with
        | none => Except.error SubErr.outOfFuel
        | some t =>
          match checkUnsubbed "build.yml".data t with
          | Except.error e => Except.error e
          | Except.ok _ => Except.ok (emit t)) := rfl
  rw [h1, cycle_fix n]

/-- C1 (amended): on the cyclic input `{a: "<<b>>", b: "<<a>>"}` with template
`"<<a>>"` the expansion does NOT terminate: every pass performs two
replacements and restores the text, so for every pass budget the model is
still looping (`outOfFuel`) and the leftover validation step is never
reached.  The source's `while True:` loop runs forever on this input. -/
theorem c1_theorem : ∀ n,
    substituteDoc n "build.yml".data ["<<a>>".data] cycleSubs = .error .outOfFuel :=
  cycle_subdoc

/-- Counterexample for C1 as stated: on the cyclic input, no pass budget ever
makes the operation fail with the unresolved-placeholder error (nor produce
any other outcome than exhausting its budget), refuting the claim that the
engine terminates and the leftover validation raises `UnresolvedPlaceholder`. -/
theorem c1_counterexample :
    ¬ ∃ n tok, substituteDoc n "build.yml".data ["<<a>>".data] cycleSubs =
      .error (.unsubbed tok "build.yml".data) := by
  rintro ⟨n, tok, h⟩
  rw [cycle_subdoc n] at h
  simp at h

/-- Witness for C1 (amended) at the concrete pass budget 7. -/
theorem c1_witness :
    substituteDoc 7 "build.yml".data ["<<a>>".data] cycleSubs = .error .outOfFuel :=
  c1_theorem 7

/- The transitive definition table of the spec's transitive-resolution
property. -/
def transSubs : List (Text × Text) := [("a".data, "<<b>>".data), ("b".data, "value".data)]

/-- C2 (amended): in the transitive case `{a: "<<b>>", b: "value"}` with
template `"<<a>>"` the loop has not finished after one pass, terminates
within two passes, and its output `"value"` contains no placeholder syntax;
the whole operation succeeds.  (The universal acyclic-coverage statement is
refuted separately: substitution can splice surrounding text into a brand-new
placeholder token.) -/
theorem c2_theorem :
    fixLoop 1 transSubs "<<a>>".data = none ∧
    fixLoop 2 transSubs "<<a>>".data = some "value".data ∧
    findPlaceholder "value".data = none ∧
    substituteDoc 2 "build.yml".data ["<<a>>".data] transSubs = .ok (emit "value".data) := by
  decide

/-- Counterexample for C2 as stated: template `"<<<<a>>>>"` with the table
`{a: "b"}`.  The only placeholder token in the template is `<<a>>` (shown by
the engine's own scanner), its definition's value `"b"` contains no
placeholder at all — so the reference graph is trivially acyclic and covers
every placeholder name reachable from the template — yet the loop terminates
with output `"<<b>>"`, which still contains placeholder syntax: replacing
`<<a>>` spliced the surrounding `<<`/`>>` into a new token, and the operation
fails. -/
theorem c2_counterexample :
    fixLoop 3 [("a".data, "b".data)] "<<<<a>>>>".data = some "<<b>>".data ∧
    findPlaceholder "<<<<a>>>>".data = some "<<a>>".data ∧
    findPlaceholder "b".data = none ∧
    findPlaceholder "<<b>>".data = some "<<b>>".data ∧
    substituteDoc 5 "build.yml".data ["<<<<a>>>>".data] [("a".data, "b".data)] =
      .error (.unsubbed "<<b>>".data "build.yml".data) := by
  decide

/- Determinism of the fuel-indexed fixpoint loop: any two pass budgets that
reach the exit condition yield the same text. -/
theorem fixLoop_det : ∀ (n m : Nat) (subs : List (Text × Text)) (t r r' : Text),
    fixLoop n subs t = some r → fixLoop m subs t = some r' → r = r' := by
  intro n
  induction n with
  | zero => intro m subs t r r' h; exact absurd h (by simp [fixLoop])
  | succ k ih =>
    intro m subs t r r' h1 h2
    cases m with
    | zero => exact absurd h2 (by simp [fixLoop])
    | succ j =>
      cases hp : (passSubs subs t).2 with
      | true =>
        simp only [fixLoop, hp, if_true] at h1 h2
        exact ih j subs (passSubs subs t).1 r r' h1 h2
      | false =>
        simp only [fixLoop, hp, Bool.false_eq_true, if_false, Option.some.injEq] at h1 h2
        rw [← h1, ← h2]

/- Inversion principle: a successful run determines which branch every stage
took. -/
theorem substituteDoc_ok {fuel : Nat} {fname : Text} {lines : List Text}
    {tb : List (Text × Text)} {r : Text} (h : substituteDoc fuel fname lines tb = .ok r) :
    ∃ subs t, extractArgs fname lines false tb = .ok subs ∧
      fixLoop fuel subs (joinNl lines) = some t ∧ checkUnsubbed fname t = .ok () ∧
      r = emit t := by
  unfold substituteDoc at h
  split at h
  next e heq => simp at h
  next subs heq =>
    split at h
    next heq2 => simp at h
    next t heq2 =>
      split at h
      next e heq3 => simp at h
      next u heq3 =>
        simp only [Except.ok.injEq] at h
        exact ⟨subs, t, heq, heq2, by cases u; exact heq3, h.symm⟩

/-- C7: the single-document expansion is deterministic — whenever two runs on
the same template lines and the same definition table both produce an output
document (banner plus expanded text), the two documents are equal, whatever
pass budgets the two runs were given.  The model is a pure function of its
inputs, mirroring the source, whose only iteration order (the definition
table's insertion order) is part of the table itself. -/
theorem c7_theorem (fname : Text) (lines : List Text) (tb : List (Text × Text)) (r r' : Text)
    (n m : Nat) (h1 : substituteDoc n fname lines tb = .ok r)
    (h2 : substituteDoc m fname lines tb = .ok r') : r = r' := by
  obtain ⟨subs1, t1, hE1, hF1, _, hr1⟩ := substituteDoc_ok h1
  obtain ⟨subs2, t2, hE2, hF2, _, hr2⟩ := substituteDoc_ok h2
  rw [hE1] at hE2
  injection hE2 with hs
  subst hs
  obtain rfl : t1 = t2 := fixLoop_det n m subs1 (joinNl lines) t1 t2 hF1 hF2
  rw [hr1, hr2]

/-- Witness for C7 at the spec's scenario (`"Hello <<name>>!"` with
`{name: "World"}`) under two pass budgets. -/
theorem c7_witness :
    substituteDoc 2 "test.yml".data ["Hello <<name>>!".data] [("name".data, "World".data)] =
      .ok (emit "Hello World!".data) ∧
    emit "Hello World!".data = emit "Hello World!".data := by
  refine ⟨by decide, ?_⟩
  exact c7_theorem "test.yml".data ["Hello <<name>>!".data] [("name".data, "World".data)]
    (emit "Hello World!".data) (emit "Hello World!".data) 2 3 (by decide) (by decide)

/-! The single substitution step: line selection, occurrence selection, and
the spliced replacement. -/

/- The engine replaces on the first line (in document order) for which the
per-line search succeeds, leaving all other lines untouched. -/
theorem applySubLines_found (B v : Text) (ls₂ : List Text) :
    ∀ (ls₁ : List Text) (l : Text) (e : Nat),
    (∀ x ∈ ls₁, lastOcc x B = none) → lastOcc l B = some e →
    applySubLines B v (ls₁ ++ l :: ls₂) = some (ls₁ ++ spliceLine l e B v :: ls₂) := by
  intro ls₁
  induction ls₁ with
  | nil => intro l e h1 h2; simp [applySubLines, h2]
  | cons x ls ih =>
    intro l e h1 h2
    have hx := h1 x (List.mem_cons_self x ls)
    have h1' : ∀ y ∈ ls, lastOcc y B = none := fun y hy => h1 y (List.mem_cons_of_mem x hy)
    simp [applySubLines, hx, ih l e h1' h2]

/- Soundness of the bounded last-occurrence search: a result `some e` means
`B` occurs at start position `e - B.length` and at no later position below
the bound. -/
theorem lastOccAux_some (l B : Text) :
    ∀ n e, lastOccAux l B n = some e →
      B.length ≤ e ∧ occAt l B (e - B.length) = true ∧
      ∀ j, e - B.length < j → j < n → occAt l B j = false := by
  intro n
  induction n with
  | zero => intro e h; exact absurd h (by simp [lastOccAux])
  | succ i ih =>
    intro e h
    cases hi : occAt l B i with
    | true =>
      simp only [lastOccAux, hi, if_true, Option.some.injEq] at h
      subst h
      refine ⟨Nat.le_add_left _ _, ?_, ?_⟩
      · simpa [Nat.add_sub_cancel] using hi
      · intro j hj hji
        omega
    | false =>
      simp only [lastOccAux, hi, Bool.false_eq_true, if_false] at h
      obtain ⟨h1, h2, h3⟩ := ih e h
      refine ⟨h1, h2, ?_⟩
      intro j hj hji
      rcases Nat.lt_succ_iff_lt_or_eq.mp hji with h' | rfl
      · exact h3 j hj h'
      · exact hi

/- A nonempty pattern cannot occur at or past the end of the line. -/
theorem occAt_big (l B : Text) (hB : B ≠ []) (j : Nat) (h : l.length ≤ j) :
    occAt l B j = false := by
  have hd : l.drop j = [] := List.drop_eq_nil_of_le h
  cases B with
  | nil => exact absurd rfl hB
  | cons b bs => simp [occAt, hd, List.isPrefixOf]

/- Specification of `lastOcc`: the match end `e` designates an occurrence of
`B` starting at `e - B.length`, and no occurrence of `B` starts later. -/
theorem lastOcc_spec (l B : Text) (e : Nat) (hB : B ≠ []) (h : lastOcc l B = some e) :
    B.length ≤ e ∧ occAt l B (e - B.length) = true ∧
    ∀ j, e - B.length < j → occAt l B j = false := by
  obtain ⟨h1, h2, h3⟩ := lastOccAux_some l B (l.length + 1) e h
  refine ⟨h1, h2, fun j hj => ?_⟩
  by_cases hjl : j < l.length + 1
  · exact h3 j hj hjl
  · exact occAt_big l B hB j (by omega)

/- A line in which the token occurs nowhere is reported as not matching. -/
theorem lastOcc_none (l B : Text) (h : ∀ j, occAt l B j = false) : lastOcc l B = none := by
  have haux : ∀ n, lastOccAux l B n = none := by
    intro n
    induction n with
    | zero => rfl
    | succ i ih => simp [lastOccAux, h i, ih]
  exact haux _

/-- C3: when the engine substitutes a value whose lines are `v₀ :: vs` (any
value splits uniquely this way, `vs` of any length, each line newline-free)
for the occurrence of `<<k>>` that follows the literal prefix `pre` on its
line (the matched occurrence ends at `pre.length + len("<<k>>")`), the first
output line is `pre ++ v₀` — the literal text preceding the placeholder
concatenated with the value's first line — and EVERY subsequent output line
is blank padding of width `pre.length` followed by the corresponding value
line, with the line's own suffix `suf` appended after the last and all
surrounding lines preserved.  Instantiating `pre := "pre"`,
value lines `["L1", "L2"]` gives `"preL1"` then three spaces and `"L2"`. -/
theorem c3_theorem (k pre suf v₀ : Text) (vs : List Text) (ls₁ ls₂ : List Text)
    (h1 : ∀ x ∈ ls₁, lastOcc x (bracket k) = none)
    (h2 : lastOcc (pre ++ bracket k ++ suf) (bracket k) =
      some (pre.length + (bracket k).length))
    (hv : ∀ s ∈ v₀ :: vs, '\n' ∉ s) :
    applySubLines (bracket k) (joinNl (v₀ :: vs))
        (ls₁ ++ (pre ++ bracket k ++ suf) :: ls₂) =
      some (ls₁ ++ (joinNl ((pre ++ v₀) ::
        vs.map (fun s => List.replicate pre.length ' ' ++ s)) ++ suf) :: ls₂) := by
  rw [applySubLines_found (bracket k) (joinNl (v₀ :: vs)) ls₂ ls₁ _ _ h1 h2]
  have hsplit : splitNl (joinNl (v₀ :: vs)) = v₀ :: vs :=
    splitNl_joinNl (v₀ :: vs) hv (by simp)
  have hw : pre.length + (bracket k).length - (bracket k).length = pre.length := by
    omega
  have htake : (pre ++ bracket k ++ suf).take pre.length = pre := by
    rw [List.append_assoc]
    exact take_len_app pre _
  have hdrop : (pre ++ bracket k ++ suf).drop (pre.length + (bracket k).length) = suf := by
    rw [← List.length_append]
    exact drop_len_app (pre ++ bracket k) suf
  simp only [spliceLine, hsplit, hw, htake, hdrop, List.headD_cons, List.tail_cons]

/-- Witness for C3 at the spec's concrete instance: line `"pre<<X>>"` with
`X = "L1\nL2"` becomes `"preL1"` followed by three spaces and `"L2"`. -/
theorem c3_witness :
    applySubLines (bracket "X".data) (joinNl ["L1".data, "L2".data])
        ([] ++ ("pre".data ++ bracket "X".data ++ "".data) :: []) =
      some ["preL1\n   L2".data] := by
  have h := c3_theorem "X".data "pre".data "".data "L1".data ["L2".data] [] []
    (by decide) (by decide) (by decide)
  rw [h]
  decide

/-- C6 (amended): within a pass, each definition's replacement happens on the
first line (in document order) on which its placeholder occurs, and on that
line the engine replaces the LAST occurrence of the placeholder (the greedy
`^.*<<key>>` match): the match end `e` designates an occurrence of the token
starting at `e - len(token)` and no occurrence starts later on the line.  In
particular, when the same placeholder occurs twice on one line, the later
occurrence is the one replaced (the earlier one is copied back as part of the
preserved prefix). -/
theorem c6_theorem (B v : Text) (hB : B ≠ []) (ls₁ : List Text) (l : Text) (ls₂ : List Text)
    (e : Nat) (h1 : ∀ x ∈ ls₁, ∀ j, occAt x B j = false) (h2 : lastOcc l B = some e) :
    applySubLines B v (ls₁ ++ l :: ls₂) = some (ls₁ ++ spliceLine l e B v :: ls₂) ∧
    B.length ≤ e ∧ occAt l B (e - B.length) = true ∧
    ∀ j, e - B.length < j → occAt l B j = false := by
  have h1' : ∀ x ∈ ls₁, lastOcc x B = none := fun x hx => lastOcc_none x B (h1 x hx)
  obtain ⟨ha, hb, hc⟩ := lastOcc_spec l B e hB h2
  exact ⟨applySubLines_found B v ls₂ ls₁ l e h1' h2, ha, hb, hc⟩

/-- Counterexample for C6 as stated: on the line `"<<a>>x<<a>>"` with
`a = "V"`, one substitution step yields `"<<a>>xV"` — the LATER occurrence
was replaced and the earlier occurrence survives as a prefix of the result —
not `"Vx<<a>>"`, which replacing the first remaining occurrence would give. -/
theorem c6_counterexample :
    applySub "<<a>>x<<a>>".data "<<a>>".data "V".data = some "<<a>>xV".data ∧
    "<<a>>".data.isPrefixOf "<<a>>xV".data = true ∧
    some "<<a>>xV".data ≠ some "Vx<<a>>".data := by decide

/-- Witness for C6 (amended) on the two-occurrence line: the match ends at 11,
i.e. the occurrence starting at position 6 (the later of positions 0 and 6). -/
theorem c6_witness :
    applySubLines "<<a>>".data "V".data ([] ++ "<<a>>x<<a>>".data :: []) =
      some ([] ++ spliceLine "<<a>>x<<a>>".data 11 "<<a>>".data "V".data :: []) ∧
    occAt "<<a>>x<<a>>".data "<<a>>".data (11 - "<<a>>".data.length) = true := by
  have h := c6_theorem "<<a>>".data "V".data (by decide) [] "<<a>>x<<a>>".data [] 11
    (fun x hx => absurd hx (List.not_mem_nil x)) (by decide)
  exact ⟨h.1, h.2.2.1⟩

/-! The leftover validator: exact characterisation of what `<<\w*>>` detects. -/

theorem mem_takeWhile' (p : Char → Bool) :
    ∀ (l : Text) (c : Char), c ∈ l.takeWhile p → p c = true := by
  intro l
  induction l with
  | nil => intro c h; simp [List.takeWhile_nil] at h
  | cons a l ih =>
    intro c h
    rw [List.takeWhile_cons] at h
    split at h
    next hpa =>
      rcases List.mem_cons.mp h with rfl | h'
      · exact hpa
      · exact ih c h'
    next => simp at h

theorem takeWhile_all_app (p : Char → Bool) :
    ∀ (w : Text) (x : Char) (rest : Text), (∀ c ∈ w, p c = true) → p x = false →
      (w ++ x :: rest).takeWhile p = w ∧ (w ++ x :: rest).dropWhile p = x :: rest := by
  intro w
  induction w with
  | nil =>
    intro x rest hw hx
    constructor
    · simp [List.takeWhile_cons, hx]
    · simp [List.dropWhile_cons, hx]
  | cons c w ih =>
    intro x rest hw hx
    have hc : p c = true := hw c (List.mem_cons_self c w)
    have hw' : ∀ d ∈ w, p d = true := fun d hd => hw d (List.mem_cons_of_mem c hd)
    obtain ⟨h1, h2⟩ := ih x rest hw' hx
    constructor
    · simp [List.takeWhile_cons, hc, h1]
    · simp [List.dropWhile_cons, hc, h2]

theorem bracket_app (w suf : Text) :
    bracket w ++ suf = '<' :: '<' :: (w ++ '>' :: '>' :: suf) := by
  simp [bracket]

/- Soundness of the head matcher: a match means the text starts with `<<`,
a run of word characters, then `>>`. -/
theorem matchHere_some (t tok : Text) (h : matchHere t = some tok) :
    ∃ w suf, t = bracket w ++ suf ∧ ∀ c ∈ w, wordChar c = true := by
  unfold matchHere at h
  by_cases h1 : "<<".data.isPrefixOf t = true
  · rw [if_pos h1] at h
    by_cases h2 : ">>".data.isPrefixOf ((t.drop 2).dropWhile wordChar) = true
    · obtain ⟨s1, hs1⟩ := (isPrefixOf_ex _ _).mp h1
      obtain ⟨s2, hs2⟩ := (isPrefixOf_ex _ _).mp h2
      have hd2 : t.drop 2 = s1 := by rw [hs1]; rfl
      rw [hd2] at hs2
      refine ⟨(t.drop 2).takeWhile wordChar, s2, ?_,
        fun c hc => mem_takeWhile' wordChar _ c hc⟩
      rw [hd2, hs1, bracket_app]
      have hsplit : s1.takeWhile wordChar ++ s1.dropWhile wordChar = s1 :=
        List.takeWhile_append_dropWhile _ _
      rw [hs2] at hsplit
      conv_lhs => rw [← hsplit]
      simp
    · rw [if_neg h2] at h; cases h
  · rw [if_neg h1] at h; cases h

/- Completeness of the head matcher: text of the shape `<<` + word run + `>>`
is matched. -/
theorem matchHere_shape (w suf : Text) (hw : ∀ c ∈ w, wordChar c = true) :
    ∃ tok, matchHere ('<' :: '<' :: (w ++ '>' :: '>' :: suf)) = some tok := by
  obtain ⟨ht, hd⟩ := takeWhile_all_app wordChar w '>' ('>' :: suf) hw (by decide)
  refine ⟨"<<".data ++ w ++ ">>".data, ?_⟩
  unfold matchHere
  have hdrop2 : ('<' :: '<' :: (w ++ '>' :: '>' :: suf)).drop 2 = w ++ '>' :: '>' :: suf :=
    rfl
  have h1 : "<<".data.isPrefixOf ('<' :: '<' :: (w ++ '>' :: '>' :: suf)) = true :=
    (isPrefixOf_ex _ _).mpr ⟨w ++ '>' :: '>' :: suf, rfl⟩
  rw [if_pos h1, hdrop2, hd]
  have h2 : ">>".data.isPrefixOf ('>' :: '>' :: suf) = true :=
    (isPrefixOf_ex _ _).mpr ⟨suf, rfl⟩
  rw [if_pos h2, ht]

/- The scanner finds a match whenever the text contains the shape anywhere. -/
theorem findPlaceholder_of_shape :
    ∀ (pre w suf : Text), (∀ c ∈ w, wordChar c = true) →
      (findPlaceholder (pre ++ bracket w ++ suf)).isSome = true := by
  intro pre
  induction pre with
  | nil =>
    intro w suf hw
    obtain ⟨tok, htok⟩ := matchHere_shape w suf hw
    have hsh : ([] : Text) ++ bracket w ++ suf = '<' :: '<' :: (w ++ '>' :: '>' :: suf) := by
      simpa using bracket_app w suf
    rw [hsh]
    simp only [findPlaceholder, htok]
    rfl
  | cons c pre ih =>
    intro w suf hw
    have hcons : (c :: pre) ++ bracket w ++ suf = c :: (pre ++ bracket w ++ suf) := by
      simp
    rw [hcons]
    cases hm : matchHere (c :: (pre ++ bracket w ++ suf)) with
    | some tok =>
      simp only [findPlaceholder, hm]
      rfl
    | none =>
      simp only [findPlaceholder, hm]
      exact ih w suf hw

/- Conversely, a scanner match exhibits the shape somewhere in the text. -/
theorem findPlaceholder_shape :
    ∀ (t tok : Text), findPlaceholder t = some tok →
      ∃ pre w suf, t = pre ++ bracket w ++ suf ∧ ∀ c ∈ w, wordChar c = true := by
  intro t
  induction t with
  | nil => intro tok h; exact absurd h (by simp [findPlaceholder])
  | cons c cs ih =>
    intro tok h
    cases hm : matchHere (c :: cs) with
    | some tk =>
      obtain ⟨w, suf, hshape, hw⟩ := matchHere_some (c :: cs) tk hm
      exact ⟨[], w, suf, by simpa using hshape, hw⟩
    | none =>
      have h' : findPlaceholder cs = some tok := by
        simpa only [findPlaceholder, hm] using h
      obtain ⟨pre, w, suf, hshape, hw⟩ := ih tok h'
      exact ⟨c :: pre, w, suf, by simp [hshape], hw⟩

/-- C4 (amended): after the loop, the validation step fails — with an error
carrying the offending token and the template identifier — if and only if the
expanded text contains a substring `<<w>>` where `w` is a possibly EMPTY run
of letters, digits or underscores; hyphens are NOT part of the detected
alphabet (the source regex is `<<\w*>>`), even though argument names may
contain them. -/
theorem c4_theorem (fname t : Text) :
    (∃ tok, checkUnsubbed fname t = .error (.unsubbed tok fname)) ↔
    ∃ pre w suf, t = pre ++ bracket w ++ suf ∧ ∀ c ∈ w, wordChar c = true := by
  constructor
  · rintro ⟨tok, h⟩
    unfold checkUnsubbed at h
    cases hf : findPlaceholder t with
    | none => rw [hf] at h; cases h
    | some tk => exact findPlaceholder_shape t tk hf
  · rintro ⟨pre, w, suf, rfl, hw⟩
    have h := findPlaceholder_of_shape pre w suf hw
    cases hf : findPlaceholder (pre ++ bracket w ++ suf) with
    | none => rw [hf] at h; cases h
    | some tk =>
      refine ⟨tk, ?_⟩
      unfold checkUnsubbed
      rw [hf]

/-- Counterexample for C4 as stated: the text `"<<a-b>>"` is a placeholder
with a token-identifier name over the claimed alphabet (letters, digits,
hyphens, underscores), yet the validation step does not fail on it; and the
text `"<<>>"` contains no such placeholder (its name would be empty), yet the
validation step does fail on it. -/
theorem c4_counterexample :
    checkUnsubbed "build.yml".data "<<a-b>>".data = .ok () ∧
    "<<a-b>>".data = [] ++ bracket "a-b".data ++ [] ∧
    (∀ c ∈ "a-b".data, c.isAlpha = true ∨ c.isDigit = true ∨ c = '-' ∨ c = '_') ∧
    checkUnsubbed "build.yml".data "<<>>".data =
      .error (.unsubbed "<<>>".data "build.yml".data) := by
  refine ⟨by decide, by decide, by decide, by decide⟩

/-- Witness for C4 (amended) at the concrete text `"<<x>>"`. -/
theorem c4_witness :
    ∃ tok, checkUnsubbed "build.yml".data "<<x>>".data =
      .error (.unsubbed tok "build.yml".data) := by
  have h := c4_theorem "build.yml".data "<<x>>".data
  exact h.mpr ⟨[], "x".data, [], by decide, by decide⟩

end FromTemplate
